import Mathlib

/-
  Verification development for the lil-mocky test-double engine
  (src/lil-mocky.js). The JavaScript source is shallowly embedded as
  executable Lean definitions: the mutable per-mock state object becomes a
  record passed and returned explicitly, JS values become the inductive
  type Val, and the private THROW_MARKER wrapper object becomes a dedicated
  constructor. Each section names the source function it embeds.
-/

namespace LilMocky

/-- Property keys: Reflect.ownKeys enumerates both ordinary string keys and
symbol keys, so keys are either strings or opaque unique tokens. -/
inductive Key where
  | str (s : String)
  | sym (id : Nat)
deriving DecidableEq, Repr

/-- JavaScript values as seen by the engine. Plain composites (arrays and
objects whose constructor is Object) are structural; an Error instance and
any other non-plain object are opaque, identified by an id so that
capture-by-reference is observable. The throwWrapper constructor models the
plain object with the private THROW_MARKER symbol key built by mock.throw. -/
inductive Val where
  | undef
  | jsNull
  | bool (b : Bool)
  | num (n : Int)
  | str (s : String)
  | arr (elems : List Val)
  | obj (fields : List (Key × Val))
  | throwWrapper (error : Val)
  | err (id : Nat) (msg : String)
  | ref (id : Nat)
deriving Repr

def Val.isUndef : Val → Bool
  | .undef => true
  | _ => false

mutual
/-- deepClone (source lines 309-325): arrays are mapped elementwise, objects
with constructor Object are cloned field by field over Reflect.ownKeys, and
every other value (primitives, Error instances, class instances) is returned
as is. The throw wrapper is itself a plain object, hence cloned. -/
def deepClone : Val → Val
  | .arr es => .arr (deepCloneList es)
  | .obj fs => .obj (deepCloneFields fs)
  | .throwWrapper e => .throwWrapper (deepClone e)
  | v => v

def deepCloneList : List Val → List Val
  | [] => []
  | v :: vs => deepClone v :: deepCloneList vs

def deepCloneFields : List (Key × Val) → List (Key × Val)
  | [] => []
  | (k, v) :: fs => (k, deepClone v) :: deepCloneFields fs
end

/-- The defaultRet record of the source: has/value, as in
defaultRet = ⟨false, undefined⟩ initially. -/
structure RetRecord where
  has : Bool
  value : Val
deriving Repr

/-- A declared parameter in options.args: either a bare string name or an
object whose single entry provides the name and a default value. -/
inductive ArgDecl where
  | name (s : String)
  | withDefault (s : String) (d : Val)
deriving Repr

def declName : ArgDecl → String
  | .name s => s
  | .withDefault s _ => s

def declDefault : ArgDecl → Val
  | .name _ => .undef
  | .withDefault _ d => d

/-- Result of one invocation: a normal return value or a thrown value. -/
inductive Outcome where
  | ret (v : Val)
  | thrown (v : Val)
deriving Repr

/-- The context bundle handed to a custom body (source lines 118-126). -/
structure Ctx where
  self : Val
  data : List (Key × Val)
  call : Nat
  args : Val
  rawArgs : List Val
  original : Option (Val → List Val → Outcome)
  ret : Val

/-- Builder options for a function mock (source lines 8-16). A custom body
and a wrapped original are modelled semantically as Lean functions from the
context, respectively receiver and raw arguments, to an outcome. -/
structure FnOptions where
  async : Bool
  body : Option (Ctx → Outcome)
  args : List ArgDecl
  select : List Nat
  original : Option (Val → List Val → Outcome)
  defaultRet : RetRecord
  rets : List (Nat × Val)

/-- Builder state before any configuration call, as initialized by
functionBuilder. -/
def baseOptions : FnOptions :=
  { async := false, body := none, args := [], select := [], original := none,
    defaultRet := { has := false, value := .undef }, rets := [] }

/-- Map.set semantics on the association-list model of the rets Map:
replace an existing binding in place, otherwise append. -/
def mapSet (m : List (Nat × Val)) (k : Nat) (v : Val) : List (Nat × Val) :=
  match m with
  | [] => [(k, v)]
  | (k', v') :: rest => if k' = k then (k, v) :: rest else (k', v') :: mapSet rest k v

/-- Map.get combined with Map.has: the first binding for the key, if any. -/
def mapGet? (m : List (Nat × Val)) (k : Nat) : Option Val :=
  match m with
  | [] => none
  | (k', v') :: rest => if k' = k then some v' else mapGet? rest k

/-- The mutable per-mock state object (source lines 49 and 60-87): parent
reference, default-return record, per-index override map, call log, data bag. -/
structure FnState where
  parent : Option Val
  defaultRet : RetRecord
  rets : List (Nat × Val)
  calls : List Val
  data : List (Key × Val)

/-- The reset closure installed by wireFunction (source lines 77-83): the
default record and override map are re-copied from the builder options, the
call log and data bag are emptied; the parent reference is untouched. -/
def wireFunctionReset (options : FnOptions) (state : FnState) : FnState :=
  { state with defaultRet := options.defaultRet, rets := options.rets,
               calls := [], data := [] }

/-- The state right after build: wireFunction calls mock.reset() once
(source line 84) on the freshly created state object. -/
def buildFnState (parent : Option Val) (options : FnOptions) : FnState :=
  wireFunctionReset options
    { parent := parent, defaultRet := { has := false, value := .undef },
      rets := [], calls := [], data := [] }

/-- callArgs[i]: reading past the end of the arguments yields undefined. -/
def listGetD (xs : List Val) (i : Nat) : Val :=
  (xs.get? i).getD (.undef)

/-- Property assignment on the args object being built: overwrite an
existing key in place, otherwise append in insertion order. -/
def setField (fs : List (Key × Val)) (k : Key) (v : Val) : List (Key × Val) :=
  match fs with
  | [] => [(k, v)]
  | (k', v') :: rest => if k' = k then (k, v) :: rest else (k', v') :: setField rest k v

/-- The loop of getFunctionArgs over options.args (source lines 140-154),
carrying the running positional index i and the object built so far. -/
def buildNamedArgs (select : List Nat) (callArgs : List Val) :
    Nat → List ArgDecl → List (Key × Val) → List (Key × Val)
  | _, [], acc => acc
  | i, d :: rest, acc =>
    if select.length ≠ 0 ∧ i ∉ select then
      buildNamedArgs select callArgs (i + 1) rest acc
    else
      let v := if (listGetD callArgs i).isUndef then declDefault d else listGetD callArgs i
      buildNamedArgs select callArgs (i + 1) rest (setField acc (.str (declName d)) v)

/-- getFunctionArgs (source lines 132-160): single selected index extracts
the raw argument; declared names build a named mapping subject to the
selection filter; otherwise the raw arguments are kept as an array. -/
def getFunctionArgs (callArgs : List Val) (options : FnOptions) : Val :=
  if options.select.length = 1 then
    listGetD callArgs options.select.headI
  else if options.args.length ≠ 0 then
    .obj (buildNamedArgs options.select callArgs 0 options.args [])
  else
    .arr callArgs

/-- The resolution of lines 106-112: the per-index override map is consulted
at the call index, then the default record, and otherwise ret stays
undefined. -/
def resolveRet (state : FnState) (call : Nat) : Val :=
  match mapGet? state.rets call with
  | some v => v
  | none => if state.defaultRet.has then state.defaultRet.value else (.undef)

/-- ret?.[THROW_MARKER] of line 114. -/
def isThrowWrapper : Val → Bool
  | .throwWrapper _ => true
  | _ => false

def wrapperError : Val → Val
  | .throwWrapper e => e
  | v => v

/-- How a resolved value is delivered (lines 114-129 with no custom body):
a marked wrapper is thrown, anything else is returned. -/
def honorVal (v : Val) : Outcome :=
  if isThrowWrapper v then .thrown (wrapperError v) else .ret v

/-- getFunctionBody (source lines 101-130): clone the processed arguments,
push them on the call log, resolve the outcome for the new call index, throw
a marked wrapper before any body runs, otherwise run the custom body with
the context bundle or return the resolved value directly. -/
def getFunctionBody (parent : Val) (state : FnState) (options : FnOptions)
    (rawArgs : List Val) : FnState × Outcome :=
  let args := deepClone (getFunctionArgs rawArgs options)
  let calls := state.calls ++ [args]
  let call := calls.length - 1
  let state' := { state with calls := calls }
  let ret := resolveRet state' call
  if isThrowWrapper ret then
    (state', .thrown (wrapperError ret))
  else
    match options.body with
    | some body =>
      (state', body { self := state'.parent.getD parent, data := state'.data,
                      call := call, args := args, rawArgs := rawArgs,
                      original := options.original, ret := ret })
    | none => (state', .ret ret)

/-- Operations available on a live mock after build (wireFunction lines
61-75) together with invocation. -/
inductive LiveOp where
  | setRet (v : Val)
  | setRetAt (i : Nat) (v : Val)
  | setThrow (e : Val)
  | setThrowAt (i : Nat) (e : Val)
  | invoke (recv : Val) (rawArgs : List Val)

def applyLiveOp (options : FnOptions) (state : FnState) : LiveOp → FnState
  | .setRet v => { state with defaultRet := { has := true, value := v } }
  | .setRetAt i v => { state with rets := mapSet state.rets i v }
  | .setThrow e => { state with defaultRet := { has := true, value := .throwWrapper e } }
  | .setThrowAt i e => { state with rets := mapSet state.rets i (.throwWrapper e) }
  | .invoke recv rawArgs => (getFunctionBody recv state options rawArgs).1

def applyLiveOps (options : FnOptions) (state : FnState) (ops : List LiveOp) : FnState :=
  ops.foldl (applyLiveOp options) state

/-- The concrete configuration of the C1 scenario: a per-index override at
call index 0 and a no-index default. -/
def firstRestOptions : FnOptions :=
  { baseOptions with defaultRet := { has := true, value := .str "rest" },
                     rets := [(0, .str "first")] }

def invokeOutcome (options : FnOptions) (state : FnState) : Outcome :=
  (getFunctionBody .undef state options []).2

def invokeNext (options : FnOptions) (state : FnState) : FnState :=
  (getFunctionBody .undef state options []).1

/-- The resolution step reads only the override map and default record, so
it ignores the freshly pushed call log. -/
theorem resolveRet_set_calls (state : FnState) (c : List Val) (n : Nat) :
    resolveRet { state with calls := c } n = resolveRet state n := rfl

/-- With no custom body, the invocation outcome is exactly the honored
resolution at the new call index, which is the number of prior calls. -/
theorem getFunctionBody_snd_nobody (options : FnOptions) (state : FnState)
    (recv : Val) (rawArgs : List Val) (hbody : options.body = none) :
    (getFunctionBody recv state options rawArgs).2 =
      honorVal (resolveRet state state.calls.length) := by
  have hcall : ∀ x : Val, (state.calls ++ [x]).length - 1 = state.calls.length := by
    intro x; simp
  simp only [getFunctionBody, hbody, hcall, resolveRet_set_calls, honorVal]
  split <;> rfl

section Claims

/-- Claim C1: for a bodyless built function mock, the outcome of an
invocation is resolved by consulting the per-index override map at the exact
0-based call index of this call (the number of previously recorded calls),
then the no-index default record, and otherwise the outcome is undefined;
concretely, with override first at index 0 and default rest, three successive
invocations return first, rest, rest. -/
theorem c1_resolution_order (options : FnOptions) (state : FnState)
    (recv : Val) (rawArgs : List Val) (hbody : options.body = none) :
    ((∀ v, mapGet? state.rets state.calls.length = some v →
        (getFunctionBody recv state options rawArgs).2 = honorVal v) ∧
     (mapGet? state.rets state.calls.length = none → state.defaultRet.has = true →
        (getFunctionBody recv state options rawArgs).2 = honorVal state.defaultRet.value) ∧
     (mapGet? state.rets state.calls.length = none → state.defaultRet.has = false →
        (getFunctionBody recv state options rawArgs).2 = .ret .undef)) ∧
    (invokeOutcome firstRestOptions (buildFnState none firstRestOptions) = .ret (.str "first") ∧
     invokeOutcome firstRestOptions
       (invokeNext firstRestOptions (buildFnState none firstRestOptions)) = .ret (.str "rest") ∧
     invokeOutcome firstRestOptions
       (invokeNext firstRestOptions
         (invokeNext firstRestOptions (buildFnState none firstRestOptions))) = .ret (.str "rest")) := by
  refine ⟨⟨?_, ?_, ?_⟩, rfl, rfl, rfl⟩
  · intro v hv
    rw [getFunctionBody_snd_nobody options state recv rawArgs hbody]
    simp only [resolveRet, hv]
  · intro hnone hhas
    rw [getFunctionBody_snd_nobody options state recv rawArgs hbody]
    simp only [resolveRet, hnone, hhas, if_true]
  · intro hnone hhas
    rw [getFunctionBody_snd_nobody options state recv rawArgs hbody]
    simp only [resolveRet, hnone, hhas]
    rfl

/-- Witness for C1 at a concrete input: a mock with a per-index override at
index 1 and no default, invoked on its second call. -/
theorem c1_resolution_order_witness :
    (getFunctionBody .undef
      { parent := none, defaultRet := { has := false, value := .undef },
        rets := [(1, .str "second")], calls := [.arr []], data := [] }
      baseOptions []).2 = honorVal (.str "second") := by
  exact (c1_resolution_order baseOptions
    { parent := none, defaultRet := { has := false, value := .undef },
      rets := [(1, .str "second")], calls := [.arr []], data := [] }
    .undef [] rfl).1.1 (.str "second") rfl

end Claims

/-- The state coming out of an invocation is the incoming state with the
processed, cloned arguments appended to the call log; no other field moves. -/
theorem getFunctionBody_fst (parent : Val) (state : FnState) (options : FnOptions)
    (rawArgs : List Val) :
    (getFunctionBody parent state options rawArgs).1 =
      { state with calls := state.calls ++ [deepClone (getFunctionArgs rawArgs options)] } := by
  simp only [getFunctionBody]
  split
  · rfl
  · split <;> rfl

/-- No live operation touches the parent reference stored at build time. -/
theorem applyLiveOp_parent (options : FnOptions) (state : FnState) (op : LiveOp) :
    (applyLiveOp options state op).parent = state.parent := by
  cases op with
  | invoke recv rawArgs =>
    show (getFunctionBody recv state options rawArgs).1.parent = state.parent
    rw [getFunctionBody_fst]
  | _ => rfl

theorem applyLiveOps_parent (options : FnOptions) (ops : List LiveOp) (state : FnState) :
    (applyLiveOps options state ops).parent = state.parent := by
  induction ops generalizing state with
  | nil => rfl
  | cons op rest ih =>
    show (applyLiveOps options (applyLiveOp options state op) rest).parent = state.parent
    rw [ih, applyLiveOp_parent]

section Claims2

/-- Claim C2: reset of a function mock is idempotent and restorative: after
any sequence of live ret/throw registrations and invocations on the built
mock, reset returns the state to exactly the build-time configuration (the
builder default record and override map, an empty call log, an empty data
bag), so re-invoking reproduces exactly the build-time outcome, and resetting
twice equals resetting once. -/
theorem c2_reset_restores (parent : Option Val) (options : FnOptions) (ops : List LiveOp) :
    (wireFunctionReset options (applyLiveOps options (buildFnState parent options) ops)
        = buildFnState parent options) ∧
    (∀ state : FnState,
        wireFunctionReset options (wireFunctionReset options state)
          = wireFunctionReset options state) ∧
    (∀ recv rawArgs,
        getFunctionBody recv
            (wireFunctionReset options (applyLiveOps options (buildFnState parent options) ops))
            options rawArgs
          = getFunctionBody recv (buildFnState parent options) options rawArgs) := by
  have hrestore : wireFunctionReset options (applyLiveOps options (buildFnState parent options) ops)
      = buildFnState parent options := by
    show FnState.mk (applyLiveOps options (buildFnState parent options) ops).parent
        options.defaultRet options.rets [] []
      = buildFnState parent options
    rw [applyLiveOps_parent]
    rfl
  exact ⟨hrestore, fun state => rfl, fun recv rawArgs => by rw [hrestore]⟩

end Claims2

/-- The named-mapping case in the words of the specification: enumerate the
declared parameters with their positional indices in declaration order, keep
only those whose index is in the selection list whenever a selection list of
more than one index is configured, and give each kept parameter the provided
positional input when it is not absent and its declared default otherwise. -/
def specNamedMapping (decls : List ArgDecl) (select : List Nat)
    (callArgs : List Val) : List (Key × Val) :=
  ((decls.enum).filter fun p =>
      decide (select.length ≤ 1) || decide (p.1 ∈ select)).foldl
    (fun acc p => setField acc (.str (declName p.2))
      (if (listGetD callArgs p.1).isUndef then declDefault p.2
       else listGetD callArgs p.1)) []

/-- The Args-Record case analysis exactly as the specification states it. -/
def argsRecordSpec (callArgs : List Val) (options : FnOptions) : Val :=
  if options.select.length = 1 then
    listGetD callArgs options.select.headI
  else if options.args.length ≠ 0 then
    .obj (specNamedMapping options.args options.select callArgs)
  else
    .arr callArgs

/-- The source loop over the declared parameters computes the mapping the
specification describes, for any starting index and accumulator, provided the
selection list is not the single-extraction case. -/
theorem buildNamedArgs_eq_spec (select : List Nat) (callArgs : List Val)
    (hsel : select.length ≠ 1) (decls : List ArgDecl) :
    ∀ (i : Nat) (acc : List (Key × Val)),
    buildNamedArgs select callArgs i decls acc =
      ((decls.enumFrom i).filter fun p =>
          decide (select.length ≤ 1) || decide (p.1 ∈ select)).foldl
        (fun acc p => setField acc (.str (declName p.2))
          (if (listGetD callArgs p.1).isUndef then declDefault p.2
           else listGetD callArgs p.1)) acc := by
  induction decls with
  | nil => intro i acc; rfl
  | cons d rest ih =>
    intro i acc
    by_cases hskip : select.length ≠ 0 ∧ i ∉ select
    · have hcond : (decide (select.length ≤ 1) || decide (i ∈ select)) = false := by
        rcases hskip with ⟨h0, hmem⟩
        simp only [Bool.or_eq_false_iff, decide_eq_false_iff_not]
        exact ⟨fun hle => h0 (by omega), hmem⟩
      simp only [buildNamedArgs, if_pos hskip, List.enumFrom, List.filter_cons, hcond,
                 Bool.false_eq_true, if_false]
      exact ih (i + 1) acc
    · have hcond : (decide (select.length ≤ 1) || decide (i ∈ select)) = true := by
        rcases Decidable.not_and_iff_or_not.mp hskip with h0 | hmem
        · have : select.length = 0 := by
            by_contra hne
            exact h0 hne
          simp [this]
        · simp [Decidable.not_not.mp hmem]
      simp only [buildNamedArgs, if_neg hskip, List.enumFrom, List.filter_cons, hcond,
                 if_true, List.foldl_cons]
      exact ih (i + 1) (setField acc (.str (declName d))
        (if (listGetD callArgs i).isUndef then declDefault d else listGetD callArgs i))

section Claims4

/-- Claim C4: the Argument Processor produces the Args-Record by exactly the
three-way case analysis of the specification: a single selection index
extracts the raw input at that index; otherwise declared parameter names
build a named mapping in declaration order, restricted to the selected
positional indices when a selection list of more than one index is
configured, each entry taking the positional input when present and the
declared default otherwise; otherwise the raw positional inputs are kept as
an ordered sequence; in particular parameters x, y invoked with 1, 2 record
the mapping x to 1 and y to 2. -/
theorem c4_args_record (callArgs : List Val) (options : FnOptions) :
    getFunctionArgs callArgs options = argsRecordSpec callArgs options ∧
    getFunctionArgs [.num 1, .num 2]
        { baseOptions with args := [.name "x", .name "y"] } =
      .obj [(.str "x", .num 1), (.str "y", .num 2)] := by
  constructor
  · unfold getFunctionArgs argsRecordSpec
    by_cases h1 : options.select.length = 1
    · simp only [if_pos h1]
    · simp only [if_neg h1]
      by_cases h2 : options.args.length ≠ 0
      · simp only [if_pos h2]
        have := buildNamedArgs_eq_spec options.select callArgs h1 options.args 0 []
        rw [this]
        rfl
      · simp only [if_neg h2]
  · rfl

end Claims4

/-- Build-time configuration with a raw Error instance registered as a plain
return value and no throw-style registration. -/
def errorReturnOptions : FnOptions :=
  { baseOptions with defaultRet := { has := true, value := .err 0 "boom" } }

section Claims7

/-- Claim C7: the claim (together with the repository README and test suite)
says a raw exception-like plain return value is honored as must-raise; but
line 114 of the source recognizes only values carrying the THROW_MARKER
symbol, so an Error instance registered via ret is returned as ordinary data
and never raised: evaluating the code at the failing input shows the outcome
is a normal return of the Error value, not a thrown condition. -/
theorem c7_error_return_not_thrown :
    (getFunctionBody .undef (buildFnState none errorReturnOptions)
        errorReturnOptions []).2 = .ret (.err 0 "boom") ∧
    ∀ e, (getFunctionBody .undef (buildFnState none errorReturnOptions)
        errorReturnOptions []).2 ≠ .thrown e := by
  refine ⟨rfl, fun e h => ?_⟩
  have h' : Outcome.ret (.err 0 "boom") = Outcome.thrown e := h
  exact Outcome.noConfusion h'

end Claims7

/-- The default replacement body installed by createSpy when no replacement
is supplied (source lines 335-340): honor a defined resolved value, otherwise
call through to the captured original with the receiver and raw arguments. -/
def spyDefaultBody : Ctx → Outcome := fun ctx =>
  if ¬ ctx.ret.isUndef then
    .ret ctx.ret
  else
    match ctx.original with
    | some f => f ctx.self ctx.rawArgs
    | none => .thrown (.err 0 "TypeError")

/-- The options of the mock createSpy builds without an explicit replacement:
functionBuilder over spyDefaultBody, with the captured original installed via
the builder original setter (source lines 334-344). -/
def createSpyNoReplacement (original : Val → List Val → Outcome) : FnOptions :=
  { baseOptions with body := some spyDefaultBody, original := some original }

section Claims8

/-- The claim of C8 fails as stated: registering the explicit return
override undefined on a spy over an original that returns 42 is an explicit
return override configured on the spy, yet the invocation passes through to
the original and returns 42 instead of honoring the override outcome
undefined. -/
theorem c8_counterexample :
    (getFunctionBody (.ref 7)
        (applyLiveOp (createSpyNoReplacement fun _ _ => .ret (.num 42))
          (buildFnState none (createSpyNoReplacement fun _ _ => .ret (.num 42)))
          (.setRet .undef))
        (createSpyNoReplacement fun _ _ => .ret (.num 42)) [.num 1]).2
      = .ret (.num 42) ∧
    Outcome.ret (.num 42) ≠ Outcome.ret .undef := by
  refine ⟨rfl, fun h => ?_⟩
  have h' : Outcome.ret (.num 42) = Outcome.ret .undef := h
  simp only [Outcome.ret.injEq] at h'
  exact Val.noConfusion h'

/-- Claim C8 as amended: for a spy created without an explicit replacement
and built without a parent, each invocation honors a configured return/throw
override when its resolved value is defined: a marked throw is raised and a
defined value is returned; when the resolution yields undefined (no override
configured, or an override whose value is undefined), the call passes through
to the captured original applied to the same receiver and the same raw,
unprocessed arguments, and the original outcome is delivered. -/
theorem c8_spy_passthrough (original : Val → List Val → Outcome)
    (state : FnState) (recv : Val) (rawArgs : List Val)
    (hparent : state.parent = none) :
    ((isThrowWrapper (resolveRet state state.calls.length) = true →
        (getFunctionBody recv state (createSpyNoReplacement original) rawArgs).2
          = .thrown (wrapperError (resolveRet state state.calls.length))) ∧
     (isThrowWrapper (resolveRet state state.calls.length) = false →
      (resolveRet state state.calls.length).isUndef = false →
        (getFunctionBody recv state (createSpyNoReplacement original) rawArgs).2
          = .ret (resolveRet state state.calls.length)) ∧
     ((resolveRet state state.calls.length).isUndef = true →
        (getFunctionBody recv state (createSpyNoReplacement original) rawArgs).2
          = original recv rawArgs)) := by
  have hcall : ∀ x : Val, (state.calls ++ [x]).length - 1 = state.calls.length := by
    intro x; simp
  refine ⟨?_, ?_, ?_⟩
  · intro hwrap
    simp only [getFunctionBody, hcall, resolveRet_set_calls, hwrap, if_true]
  · intro hwrap hdef
    simp only [getFunctionBody, hcall, resolveRet_set_calls, hwrap, Bool.false_eq_true,
               if_false, createSpyNoReplacement, spyDefaultBody, hdef, Bool.false_eq_true,
               not_false_eq_true, if_true]
  · intro hundef
    have hwrap : isThrowWrapper (resolveRet state state.calls.length) = false := by
      cases hres : resolveRet state state.calls.length <;>
        simp_all [Val.isUndef, isThrowWrapper]
    simp only [getFunctionBody, hcall, resolveRet_set_calls, hwrap, Bool.false_eq_true,
               if_false, createSpyNoReplacement, spyDefaultBody, hundef]
    simp [hparent]

/-- Witness for C8 as amended: a spy over an original returning 5, with no
override configured, passes the receiver and raw arguments through and
returns 5. -/
theorem c8_spy_passthrough_witness :
    (getFunctionBody (.ref 3)
        (buildFnState none (createSpyNoReplacement fun recv args => .ret (.arr (recv :: args))))
        (createSpyNoReplacement fun recv args => .ret (.arr (recv :: args)))
        [.num 1, .num 2]).2
      = .ret (.arr [.ref 3, .num 1, .num 2]) := by
  have h := (c8_spy_passthrough (fun recv args => .ret (.arr (recv :: args)))
    (buildFnState none (createSpyNoReplacement fun recv args => .ret (.arr (recv :: args))))
    (.ref 3) [.num 1, .num 2] rfl).2.2 rfl
  rw [h]

end Claims8

/-- A value in the definition mapping handed to the object builder: a plain
value, a nested function builder carrying its options, or a nested object
builder carrying its own definition mapping. Builders are the definitions
with a build method. -/
inductive PropDef where
  | plainP (v : Val)
  | fnB (options : FnOptions)
  | objB (props : List (Key × PropDef))

/-- A live slot of a built container. Each entry of a container records the
property attributes (writable, configurable) next to the slot: builder-built
slots are installed through Object.defineProperty with both false, plain
values through ordinary assignment with both true. A built nested object
keeps the definition mapping its reset closure captured. The parent
reference of nested mock states (the container object itself in the source)
is left abstract here: it only feeds the self field of a custom body context
and no verified claim consults it. -/
inductive LiveSlot where
  | plainS (v : Val)
  | fnS (options : FnOptions) (st : FnState)
  | objS (props : List (Key × PropDef)) (entries : List (Key × Bool × Bool × LiveSlot))

mutual
/-- createObjectWithProps (source lines 209-223): every key of the
definition mapping is installed, builders in place via defineProperty,
plain values via assignment. -/
def createObjectWithProps (props : List (Key × PropDef)) :
    List (Key × Bool × Bool × LiveSlot) :=
  match props with
  | [] => []
  | (k, d) :: rest => (k, buildEntry d) :: createObjectWithProps rest

def buildEntry : PropDef → Bool × Bool × LiveSlot
  | .plainP v => (true, true, .plainS v)
  | .fnB options => (false, false, .fnS options (buildFnState none options))
  | .objB props => (false, false, .objS props (createObjectWithProps props))
end

/-- First binding of a key in a definition mapping. -/
def lookupDef (props : List (Key × PropDef)) (k : Key) : Option PropDef :=
  match props with
  | [] => none
  | (k', d) :: rest => if k' = k then some d else lookupDef rest k

/-- First entry of a key on a live container: its attributes and slot. -/
def lookupEntry (entries : List (Key × Bool × Bool × LiveSlot)) (k : Key) :
    Option (Bool × Bool × LiveSlot) :=
  match entries with
  | [] => none
  | (k', e) :: rest => if k' = k then some e else lookupEntry rest k

/-- Whether the key was registered in initialMocks at wire time (source
lines 182-189): its definition value had a build method. -/
def isMockDef : Option PropDef → Bool
  | some (.fnB _) => true
  | some (.objB _) => true
  | _ => false

mutual
/-- The reset call on one slot: a nested function mock runs its own reset,
a nested container recurses, and a slot with no reset method is skipped. -/
def resetSlot : LiveSlot → LiveSlot
  | .plainS v => .plainS v
  | .fnS options st => .fnS options (wireFunctionReset options st)
  | .objS props entries => .objS props (wireObjectReset props entries)

/-- The reset closure installed by wireObject (source lines 191-204): walk
every key currently on the container, skip the reset key itself, call the
nested reset for keys that were builders in the initial definition, restore
the captured initial value for original plain-value keys, and delete
everything else. -/
def wireObjectReset (initialProps : List (Key × PropDef))
    (entries : List (Key × Bool × Bool × LiveSlot)) :
    List (Key × Bool × Bool × LiveSlot) :=
  match entries with
  | [] => []
  | (k, w, c, slot) :: rest =>
    if k = .str "reset" then
      (k, w, c, slot) :: wireObjectReset initialProps rest
    else
      match lookupDef initialProps k with
      | some (.fnB _) => (k, w, c, resetSlot slot) :: wireObjectReset initialProps rest
      | some (.objB _) => (k, w, c, resetSlot slot) :: wireObjectReset initialProps rest
      | some (.plainP v) => (k, w, c, .plainS v) :: wireObjectReset initialProps rest
      | none => wireObjectReset initialProps rest
end

/-- Ordinary property assignment on a container: writing an existing
non-writable key is a silent no-op, writing an existing writable key
replaces the value, and writing a fresh key adds a writable, configurable
plain property. -/
def assignKey (entries : List (Key × Bool × Bool × LiveSlot)) (k : Key) (v : Val) :
    List (Key × Bool × Bool × LiveSlot) :=
  match entries with
  | [] => [(k, true, true, .plainS v)]
  | (k', w, c, slot) :: rest =>
    if k' = k then
      if w then (k, w, c, .plainS v) :: rest else (k', w, c, slot) :: rest
    else
      (k', w, c, slot) :: assignKey rest k v

/-- How one reset pass transforms the entry found at a key, as a function of
the build-time classification of that key: builders keep their slot reset,
original plain keys are restored, unknown keys are gone. -/
def resetClassify (dopt : Option PropDef) (eopt : Option (Bool × Bool × LiveSlot)) :
    Option (Bool × Bool × LiveSlot) :=
  match dopt with
  | some (.fnB _) => eopt.map fun e => (e.1, e.2.1, resetSlot e.2.2)
  | some (.objB _) => eopt.map fun e => (e.1, e.2.1, resetSlot e.2.2)
  | some (.plainP v) => eopt.map fun e => (e.1, e.2.1, LiveSlot.plainS v)
  | none => none

/-- What the reset walk leaves at a key other than the reset key itself. -/
theorem wireObjectReset_lookup (initialProps : List (Key × PropDef)) (k : Key)
    (hk : k ≠ .str "reset") (entries : List (Key × Bool × Bool × LiveSlot)) :
    lookupEntry (wireObjectReset initialProps entries) k =
      resetClassify (lookupDef initialProps k) (lookupEntry entries k) := by
  induction entries with
  | nil =>
    cases hdef : lookupDef initialProps k with
    | none => simp [wireObjectReset, lookupEntry, resetClassify]
    | some d => cases d <;> simp [wireObjectReset, lookupEntry, resetClassify]
  | cons e rest ih =>
    obtain ⟨k', w, c, slot⟩ := e
    by_cases hk' : k' = k
    · subst hk'
      have hr : ¬ (k' = Key.str "reset") := hk
      cases hdef : lookupDef initialProps k' with
      | none =>
        simp only [wireObjectReset, if_neg hr, hdef]
        rw [ih]
        simp [resetClassify, hdef]
      | some d =>
        cases d <;> simp [wireObjectReset, hr, hdef, lookupEntry, resetClassify]
    · by_cases hr : k' = Key.str "reset"
      · simp only [wireObjectReset, if_pos hr, lookupEntry, if_neg hk']
        exact ih
      · cases hdef : lookupDef initialProps k' with
        | none =>
          simp only [wireObjectReset, if_neg hr, hdef]
          rw [ih]
          simp [lookupEntry, hk']
        | some d =>
          cases d <;>
            simpa only [wireObjectReset, if_neg hr, hdef, lookupEntry, if_neg hk'] using ih

section Claims6

/-- Claim C6: object-mock reset follows the three-way protocol uniformly
over string and symbol keys: every key currently present whose definition
entry was a nested builder has that mock reset in place (recursing through
nested containers, a reset function mock having an empty call log); every
original plain-value key is restored to its captured initial value whatever
it holds now; and every key absent from the build-time definition is deleted,
so lookup on the container no longer finds it. -/
theorem c6_object_reset (initialProps : List (Key × PropDef))
    (entries : List (Key × Bool × Bool × LiveSlot)) (k : Key)
    (hk : k ≠ .str "reset") :
    ((∀ w c slot, lookupEntry entries k = some (w, c, slot) →
        isMockDef (lookupDef initialProps k) = true →
        lookupEntry (wireObjectReset initialProps entries) k
          = some (w, c, resetSlot slot)) ∧
     (∀ w c slot v, lookupEntry entries k = some (w, c, slot) →
        lookupDef initialProps k = some (.plainP v) →
        lookupEntry (wireObjectReset initialProps entries) k
          = some (w, c, LiveSlot.plainS v)) ∧
     (lookupDef initialProps k = none →
        lookupEntry (wireObjectReset initialProps entries) k = none)) ∧
    (∀ options st,
        resetSlot (.fnS options st) = .fnS options (wireFunctionReset options st) ∧
        (wireFunctionReset options st).calls = []) := by
  refine ⟨⟨?_, ?_, ?_⟩, fun options st => ⟨rfl, rfl⟩⟩
  · intro w c slot hent hmock
    rw [wireObjectReset_lookup initialProps k hk entries]
    cases hdef : lookupDef initialProps k with
    | none => rw [hdef] at hmock; exact absurd hmock (by simp [isMockDef])
    | some d =>
      cases d with
      | plainP v => rw [hdef] at hmock; exact absurd hmock (by simp [isMockDef])
      | fnB options => simp [resetClassify, hent]
      | objB props => simp [resetClassify, hent]
  · intro w c slot v hent hdef
    rw [wireObjectReset_lookup initialProps k hk entries]
    simp [resetClassify, hdef, hent]
  · intro hdef
    rw [wireObjectReset_lookup initialProps k hk entries]
    simp [resetClassify, hdef]

/-- Witness for C6 at a concrete container with a string key and a symbol
key: a nested mock key keeps its reset slot, a plain symbol key is restored,
and a key added after build is deleted. -/
theorem c6_object_reset_witness :
    lookupEntry
      (wireObjectReset
        [(.str "m", .fnB baseOptions), (.sym 4, .plainP (.num 8))]
        [(.str "m", false, false, .fnS baseOptions (buildFnState none baseOptions)),
         (.sym 4, true, true, .plainS (.num 99)),
         (.str "later", true, true, .plainS (.num 1))])
      (.sym 4) = some (true, true, LiveSlot.plainS (.num 8)) ∧
    lookupEntry
      (wireObjectReset
        [(.str "m", .fnB baseOptions), (.sym 4, .plainP (.num 8))]
        [(.str "m", false, false, .fnS baseOptions (buildFnState none baseOptions)),
         (.sym 4, true, true, .plainS (.num 99)),
         (.str "later", true, true, .plainS (.num 1))])
      (.str "later") = none := by
  constructor
  · exact ((c6_object_reset
      [(.str "m", .fnB baseOptions), (.sym 4, .plainP (.num 8))]
      [(.str "m", false, false, .fnS baseOptions (buildFnState none baseOptions)),
       (.sym 4, true, true, .plainS (.num 99)),
       (.str "later", true, true, .plainS (.num 1))]
      (.sym 4) (by simp)).1.2.1 true true (.plainS (.num 99)) (.num 8) rfl rfl)
  · exact ((c6_object_reset
      [(.str "m", .fnB baseOptions), (.sym 4, .plainP (.num 8))]
      [(.str "m", false, false, .fnS baseOptions (buildFnState none baseOptions)),
       (.sym 4, true, true, .plainS (.num 99)),
       (.str "later", true, true, .plainS (.num 1))]
      (.str "later") (by simp)).1.2.2 rfl)

end Claims6

/-- The member definition mapping of a class builder: each key carries its
definition value together with the static mark set by the builder static
call. Only function builders carry the mark in the source API. -/
abbrev Members := List (Key × PropDef × Bool)

/-- One instance Description: the object created by createObjectWithProps
over the full member mapping (the source builds statics into it as well,
harmlessly, since the loop at line 246 uses the whole member object). -/
abbrev Desc := List (Key × Bool × Bool × LiveSlot)

def buildDesc (members : Members) : Desc :=
  createObjectWithProps (members.map fun m => (m.1, m.2.1))

/-- The statics loop of createClass (source lines 257-269): the constructor
key is skipped, members marked static are built onto the class itself
through Object.defineProperty (hence non-writable, non-configurable) and
recorded in the statics list; the class properties holding them are modelled
with the same attributed entries as object containers. -/
def buildStatics (members : Members) : List (Key × Bool × Bool × LiveSlot) :=
  members.filterMap fun m =>
    if m.1 = Key.str "constructor" then none
    else if m.2.2 then
      match m.2.1 with
      | .fnB options =>
          some (m.1, false, false, .fnS options (buildFnState none options))
      | _ => none
    else none

/-- The mutable class state (source lines 231, 242-307): the sparse ordered
Description list, the constructed-instance counter, the statics installed on
the class, the class data bag. -/
structure ClassState where
  descriptions : List (Option Desc)
  numInstances : Nat
  statics : List (Key × Bool × Bool × LiveSlot)
  data : List (Key × Val)

/-- Sparse-array read: a hole or an index past the end is undefined. -/
def getSlot : List (Option Desc) → Nat → Option Desc
  | [], _ => none
  | d :: _, 0 => d
  | _ :: rest, i + 1 => getSlot rest i

/-- Sparse-array write at an arbitrary index, padding skipped slots with
holes as JavaScript does. -/
def setSlot : List (Option Desc) → Nat → Desc → List (Option Desc)
  | [], 0, d => [some d]
  | [], i + 1, d => none :: setSlot [] i d
  | _ :: rest, 0, d => some d :: rest
  | x :: rest, i + 1, d => x :: setSlot rest i d

/-- Replace the slot stored at a key of a Description, keeping attributes:
the internal state change of the nested mock object living there. -/
def updateSlot (entries : Desc) (k : Key) (slot : LiveSlot) : Desc :=
  match entries with
  | [] => []
  | (k', w, c, s) :: rest =>
    if k' = k then (k', w, c, slot) :: rest else (k', w, c, s) :: updateSlot rest k slot

/-- The Description used by a construction (source lines 244-247): the slot
at the current counter when filled, a Description created on demand from the
member definitions otherwise. -/
def descForConstruction (members : Members) (st : ClassState) : Desc :=
  (getSlot st.descriptions st.numInstances).getD (buildDesc members)

/-- Running the constructor member over a Description (source lines
251-252): when the Description holds a built function mock under the
constructor key it is invoked with the construction arguments, advancing
that mock state; a thrown outcome aborts the construction. Without such a
member the inherited Object function is called, with no observable effect.
The receiver passed to the constructor body is the new instance; it is left
abstract as undefined here since no verified claim consults it. -/
def runConstructor (d : Desc) (ctorArgs : List Val) : Desc × Except Val Unit :=
  match lookupEntry d (.str "constructor") with
  | some (_, _, .fnS options ctorSt) =>
    match getFunctionBody .undef ctorSt options ctorArgs with
    | (ctorSt', .thrown e) =>
        (updateSlot d (.str "constructor") (.fnS options ctorSt'), .error e)
    | (ctorSt', .ret _) =>
        (updateSlot d (.str "constructor") (.fnS options ctorSt'), .ok ())
  | _ => (d, .ok ())

/-- The constructor function of createClass (source lines 243-255): the new
instance index is the current counter, the Description at that slot is
reused when present and created on demand otherwise, the constructor member
runs, and the counter increments only when construction completes. -/
def mockConstruct (members : Members) (st : ClassState) (ctorArgs : List Val) :
    ClassState × Except Val Nat :=
  let index := st.numInstances
  match runConstructor (descForConstruction members st) ctorArgs with
  | (d1, .error e) =>
      ({ st with descriptions := setSlot st.descriptions index d1 }, .error e)
  | (d1, .ok _) =>
      ({ st with descriptions := setSlot st.descriptions index d1,
                 numInstances := index + 1 }, .ok index)

/-- Mock.inst (source lines 287-292): look up or lazily create the
Description at the given instance index; the counter never moves here. -/
def mockInst (members : Members) (st : ClassState) (index : Nat) :
    ClassState × Desc :=
  match getSlot st.descriptions index with
  | some d => (st, d)
  | none =>
    let d := buildDesc members
    ({ st with descriptions := setSlot st.descriptions index d }, d)

/-- Mock.reset of wireClass (source lines 295-303): drop every Description,
zero the counter, clear the class data bag, and run the reset of every
static member in place. -/
def wireClassReset (st : ClassState) : ClassState :=
  { descriptions := [], numInstances := 0, data := [],
    statics := st.statics.map fun e => (e.1, e.2.1, e.2.2.1, resetSlot e.2.2.2) }

/-- The class state right after build: statics built by createClass, then
Mock.reset() run once by wireClass (source line 304). -/
def initClassState (members : Members) : ClassState :=
  wireClassReset { descriptions := [], numInstances := 0,
                   statics := buildStatics members, data := [] }

/-- The forwarding getter installed on the class prototype for an instance
member key (source lines 271-274): dereference the Description bound to the
instance index, raising a TypeError when that slot is empty, then read the
property (undefined when the Description lacks the key). -/
def readInstMember (st : ClassState) (instIdx : Nat) (k : Key) :
    Except String LiveSlot :=
  match getSlot st.descriptions instIdx with
  | none => .error "TypeError"
  | some d => .ok (((lookupEntry d k).map fun e => e.2.2).getD (.plainS .undef))

/-- The forwarding setter (source lines 275-277): dereference the bound
Description, raising a TypeError when the slot is empty, then assign the
property on it. -/
def writeInstMember (st : ClassState) (instIdx : Nat) (k : Key) (v : Val) :
    Except String ClassState :=
  match getSlot st.descriptions instIdx with
  | none => .error "TypeError"
  | some d =>
    .ok { st with descriptions := setSlot st.descriptions instIdx (assignKey d k v) }

/-- Writing a slot and reading it back at the same index. -/
theorem getSlot_setSlot_self :
    ∀ (i : Nat) (l : List (Option Desc)) (d : Desc),
    getSlot (setSlot l i d) i = some d := by
  intro i
  induction i with
  | zero => intro l d; cases l <;> rfl
  | succ n ih =>
    intro l d
    cases l with
    | nil => exact ih [] d
    | cons x rest => exact ih rest d

/-- Writing a slot leaves every other index untouched. -/
theorem getSlot_setSlot_ne (d : Desc) :
    ∀ (i : Nat) (l : List (Option Desc)) (j : Nat), i ≠ j →
    getSlot (setSlot l i d) j = getSlot l j := by
  intro i
  induction i with
  | zero =>
    intro l j hne
    cases l with
    | nil => cases j with
      | zero => exact absurd rfl hne
      | succ m => rfl
    | cons x rest => cases j with
      | zero => exact absurd rfl hne
      | succ m => rfl
  | succ n ih =>
    intro l j hne
    cases l with
    | nil =>
      cases j with
      | zero => rfl
      | succ m =>
        have hnm : n ≠ m := fun h => hne (by rw [h])
        exact (ih [] m hnm).trans rfl
    | cons x rest =>
      cases j with
      | zero => rfl
      | succ m =>
        have hnm : n ≠ m := fun h => hne (by rw [h])
        exact ih rest m hnm

/-- The entries of a built container mirror the definition mapping. -/
theorem createObjectWithProps_lookup :
    ∀ (props : List (Key × PropDef)) (k : Key),
    lookupEntry (createObjectWithProps props) k = (lookupDef props k).map buildEntry := by
  intro props k
  induction props with
  | nil => rfl
  | cons p rest ih =>
    obtain ⟨k', d⟩ := p
    by_cases hk' : k' = k
    · simp [createObjectWithProps, lookupEntry, lookupDef, hk']
    · simpa [createObjectWithProps, lookupEntry, lookupDef, hk'] using ih

/-- Assigning to a key whose first entry is non-writable changes nothing. -/
theorem assignKey_nonwritable :
    ∀ (entries : List (Key × Bool × Bool × LiveSlot)) (k : Key) (v : Val)
      (c : Bool) (slot : LiveSlot),
    lookupEntry entries k = some (false, c, slot) → assignKey entries k v = entries := by
  intro entries k v c slot h
  induction entries with
  | nil => exact Option.noConfusion h
  | cons e rest ih =>
    obtain ⟨k', w', c', slot'⟩ := e
    by_cases hk' : k' = k
    · rw [lookupEntry, if_pos hk'] at h
      have hw : w' = false := congrArg (fun p => p.1) (Option.some.inj h)
      subst hw
      simp [assignKey, hk']
    · rw [lookupEntry, if_neg hk'] at h
      simp [assignKey, hk', ih h]

/-- A key found on the container is one of its entries. -/
theorem lookupEntry_mem :
    ∀ (entries : List (Key × Bool × Bool × LiveSlot)) (k : Key) (e : Bool × Bool × LiveSlot),
    lookupEntry entries k = some e → (k, e) ∈ entries := by
  intro entries k e h
  induction entries with
  | nil => exact Option.noConfusion h
  | cons e' rest ih =>
    obtain ⟨k', v'⟩ := e'
    by_cases hk' : k' = k
    · rw [lookupEntry, if_pos hk'] at h
      subst hk'
      exact List.mem_cons.mpr (Or.inl (by rw [Option.some.inj h]))
    · rw [lookupEntry, if_neg hk'] at h
      exact List.mem_cons.mpr (Or.inr (ih h))

/-- Every property installed by the statics loop is non-writable and
non-configurable, as Object.defineProperty defaults dictate. -/
theorem buildStatics_attrs (members : Members) (k : Key) (e : Bool × Bool × LiveSlot)
    (he : (k, e) ∈ buildStatics members) : e.1 = false ∧ e.2.1 = false := by
  rw [buildStatics, List.mem_filterMap] at he
  obtain ⟨m, _, hf⟩ := he
  by_cases h1 : m.1 = Key.str "constructor"
  · rw [if_pos h1] at hf
    exact Option.noConfusion hf
  · rw [if_neg h1] at hf
    by_cases h2 : m.2.2
    · rw [if_pos h2] at hf
      cases hd : m.2.1 with
      | plainP v => rw [hd] at hf; exact Option.noConfusion hf
      | objB props => rw [hd] at hf; exact Option.noConfusion hf
      | fnB options =>
        rw [hd] at hf
        have := Option.some.inj hf
        have he2 : e = (false, false, LiveSlot.fnS options (buildFnState none options)) := by
          have := congrArg (fun p => p.2) this
          simpa using this.symm
        rw [he2]
        exact ⟨rfl, rfl⟩
    · rw [if_neg h2] at hf
      exact Option.noConfusion hf

section Claims9

/-- Claim C9: every slot holding a built nested mock, whether a key of an
object container whose definition entry was a builder or a static member
installed on a class mock, is installed as a non-writable, non-configurable
property, and a plain assignment to that key after build leaves the
installed entry unchanged, so the originally installed mock remains in
place. -/
theorem c9_builder_slots_frozen :
    (∀ (props : List (Key × PropDef)) (k : Key) (d : PropDef),
        lookupDef props k = some d → isMockDef (some d) = true →
        lookupEntry (createObjectWithProps props) k
          = some (false, false, (buildEntry d).2.2) ∧
        ∀ v, assignKey (createObjectWithProps props) k v = createObjectWithProps props) ∧
    (∀ (members : Members) (k : Key) (e : Bool × Bool × LiveSlot),
        lookupEntry (buildStatics members) k = some e →
        e.1 = false ∧ e.2.1 = false ∧
        ∀ v, assignKey (buildStatics members) k v = buildStatics members) := by
  constructor
  · intro props k d hdef hmock
    have hlook : lookupEntry (createObjectWithProps props) k
        = some (false, false, (buildEntry d).2.2) := by
      rw [createObjectWithProps_lookup props k, hdef]
      cases d with
      | plainP v => exact absurd hmock (by simp [isMockDef])
      | fnB options => rfl
      | objB nested => rfl
    refine ⟨hlook, fun v => ?_⟩
    exact assignKey_nonwritable (createObjectWithProps props) k v
      false ((buildEntry d).2.2) hlook
  · intro members k e he
    obtain ⟨hw, hc⟩ := buildStatics_attrs members k e (lookupEntry_mem _ k e he)
    refine ⟨hw, hc, fun v => ?_⟩
    obtain ⟨w, c, slot⟩ := e
    have hw' : w = false := hw
    subst hw'
    exact assignKey_nonwritable (buildStatics members) k v c slot he

/-- Witness for C9: a container with one builder key and one plain key; the
builder key is frozen and assignment to it does not change the container. -/
theorem c9_builder_slots_frozen_witness :
    lookupEntry
      (createObjectWithProps [(.str "m", .fnB baseOptions), (.str "p", .plainP (.num 1))])
      (.str "m")
      = some (false, false, (buildEntry (.fnB baseOptions)).2.2) ∧
    assignKey
      (createObjectWithProps [(.str "m", .fnB baseOptions), (.str "p", .plainP (.num 1))])
      (.str "m") (.num 5)
      = createObjectWithProps [(.str "m", .fnB baseOptions), (.str "p", .plainP (.num 1))] := by
  have h := c9_builder_slots_frozen.1
    [(.str "m", .fnB baseOptions), (.str "p", .plainP (.num 1))]
    (.str "m") (.fnB baseOptions) rfl rfl
  exact ⟨h.1, h.2 (.num 5)⟩

end Claims9

/-- The concrete member mapping of the C5 scenario: a single plain instance
member. -/
def scenarioMembers : Members := [(Key.str "runM", .plainP (.num 0), false)]

/-- Unwrap a successful state transition, falling back to a default. -/
def exceptOrD (e : Except String ClassState) (d : ClassState) : ClassState :=
  match e with
  | .ok s => s
  | .error _ => d

section Claims5

/-- Claim C5: the class state machine starts with zero Descriptions and a
zero instance counter; constructing the Nth instance binds it to the
Description slot N, the current counter value, reusing a pre-configured
Description there and creating one on demand otherwise, and increments the
counter exactly on completed construction while inst lookups never move it;
Descriptions of distinct instances are independent: writing through one
instance never changes the slot of another; a full class reset drops every
Description, zeroes the counter and resets every static member, and the next
construction reuses slot 0; in particular pre-configuring instance index 1
before any construction and then constructing twice binds the second
constructed instance to the pre-configured Description. -/
theorem c5_class_state_machine (members : Members) :
    ((initClassState members).descriptions = [] ∧
     (initClassState members).numInstances = 0) ∧
    (∀ st ctorArgs i, (mockConstruct members st ctorArgs).2 = .ok i →
        i = st.numInstances ∧
        (mockConstruct members st ctorArgs).1.numInstances = st.numInstances + 1) ∧
    (∀ st ctorArgs,
        getSlot (mockConstruct members st ctorArgs).1.descriptions st.numInstances
          = some (runConstructor (descForConstruction members st) ctorArgs).1) ∧
    (∀ st d, getSlot st.descriptions st.numInstances = some d →
        descForConstruction members st = d) ∧
    (∀ st, getSlot st.descriptions st.numInstances = none →
        descForConstruction members st = buildDesc members) ∧
    (∀ st i, (mockInst members st i).1.numInstances = st.numInstances) ∧
    (∀ st i j k v st', i ≠ j → writeInstMember st i k v = .ok st' →
        getSlot st'.descriptions j = getSlot st.descriptions j) ∧
    (∀ st, (wireClassReset st).descriptions = [] ∧
        (wireClassReset st).numInstances = 0 ∧
        (wireClassReset st).statics
          = st.statics.map fun e => (e.1, e.2.1, e.2.2.1, resetSlot e.2.2.2)) ∧
    (∀ st ctorArgs i,
        (mockConstruct members (wireClassReset st) ctorArgs).2 = .ok i → i = 0) ∧
    ((mockConstruct scenarioMembers
        (exceptOrD
          (writeInstMember (mockInst scenarioMembers (initClassState scenarioMembers) 1).1
            1 (.str "runM") (.num 7))
          (initClassState scenarioMembers)) []).2 = .ok 0 ∧
     (mockConstruct scenarioMembers
        (mockConstruct scenarioMembers
          (exceptOrD
            (writeInstMember (mockInst scenarioMembers (initClassState scenarioMembers) 1).1
              1 (.str "runM") (.num 7))
            (initClassState scenarioMembers)) []).1 []).2 = .ok 1 ∧
     readInstMember
       (mockConstruct scenarioMembers
          (mockConstruct scenarioMembers
            (exceptOrD
              (writeInstMember (mockInst scenarioMembers (initClassState scenarioMembers) 1).1
                1 (.str "runM") (.num 7))
              (initClassState scenarioMembers)) []).1 []).1
       1 (.str "runM") = .ok (.plainS (.num 7))) := by
  refine ⟨⟨rfl, rfl⟩, ?_, ?_, ?_, ?_, ?_, ?_, ?_, ?_, rfl, rfl, rfl⟩
  · intro st ctorArgs i h
    rcases hrc : runConstructor (descForConstruction members st) ctorArgs with ⟨d1, r⟩
    cases r with
    | error e =>
      rw [mockConstruct] at h
      rw [hrc] at h
      exact Except.noConfusion h
    | ok u =>
      rw [mockConstruct] at h ⊢
      rw [hrc] at h ⊢
      exact ⟨(Except.ok.inj h).symm, rfl⟩
  · intro st ctorArgs
    rcases hrc : runConstructor (descForConstruction members st) ctorArgs with ⟨d1, r⟩
    cases r with
    | error e =>
      rw [mockConstruct, hrc]
      exact getSlot_setSlot_self st.numInstances st.descriptions d1
    | ok u =>
      rw [mockConstruct, hrc]
      exact getSlot_setSlot_self st.numInstances st.descriptions d1
  · intro st d h
    simp [descForConstruction, h]
  · intro st h
    simp [descForConstruction, h]
  · intro st i
    cases hg : getSlot st.descriptions i with
    | none => rw [mockInst, hg]
    | some d => rw [mockInst, hg]
  · intro st i j k v st' hij h
    cases hg : getSlot st.descriptions i with
    | none =>
      rw [writeInstMember, hg] at h
      exact Except.noConfusion h
    | some d =>
      rw [writeInstMember, hg] at h
      rw [← Except.ok.inj h]
      exact getSlot_setSlot_ne (assignKey d k v) i st.descriptions j hij
  · intro st
    exact ⟨rfl, rfl, rfl⟩
  · intro st ctorArgs i h
    rcases hrc : runConstructor (descForConstruction members (wireClassReset st)) ctorArgs
      with ⟨d1, r⟩
    cases r with
    | error e =>
      rw [mockConstruct] at h
      rw [hrc] at h
      exact Except.noConfusion h
    | ok u =>
      rw [mockConstruct] at h
      rw [hrc] at h
      exact (Except.ok.inj h).symm

/-- Witness for C5: the first construction of a fresh class mock is bound to
index 0 and moves the counter to 1. -/
theorem c5_class_state_machine_witness :
    0 = (initClassState scenarioMembers).numInstances ∧
    (mockConstruct scenarioMembers (initClassState scenarioMembers) []).1.numInstances
      = (initClassState scenarioMembers).numInstances + 1 := by
  exact (c5_class_state_machine scenarioMembers).2.1
    (initClassState scenarioMembers) [] 0 rfl

end Claims5

section Claims10

/-- Claim C10: after a full class reset every previously constructed
instance is stranded: the forwarding accessors dereference an emptied
Description slot, so reading or writing any instance member of any instance
index raises a TypeError; the slot becomes usable again only when it is
re-created, by an inst pre-configuration at that index or by a new
construction reaching it. -/
theorem c10_stranded_instances (st : ClassState) (members : Members) :
    (∀ instIdx k, readInstMember (wireClassReset st) instIdx k = .error "TypeError") ∧
    (∀ instIdx k v, writeInstMember (wireClassReset st) instIdx k v = .error "TypeError") ∧
    (∀ instIdx k, ∃ slot,
        readInstMember ((mockInst members (wireClassReset st) instIdx).1) instIdx k
          = .ok slot) ∧
    (∀ ctorArgs k, ∃ slot,
        readInstMember ((mockConstruct members (wireClassReset st) ctorArgs).1) 0 k
          = .ok slot) := by
  have hempty : ∀ i, getSlot ((wireClassReset st).descriptions) i = none := by
    intro i
    cases i <;> rfl
  refine ⟨?_, ?_, ?_, ?_⟩
  · intro instIdx k
    rw [readInstMember, hempty instIdx]
  · intro instIdx k v
    rw [writeInstMember, hempty instIdx]
  · intro instIdx k
    rw [mockInst, hempty instIdx]
    rw [readInstMember]
    rw [show getSlot (setSlot (wireClassReset st).descriptions instIdx (buildDesc members))
          instIdx = some (buildDesc members) from
        getSlot_setSlot_self instIdx (wireClassReset st).descriptions (buildDesc members)]
    exact ⟨_, rfl⟩
  · intro ctorArgs k
    rcases hrc : runConstructor (descForConstruction members (wireClassReset st)) ctorArgs
      with ⟨d1, r⟩
    cases r with
    | error e =>
      rw [mockConstruct, hrc, readInstMember]
      rw [show getSlot (setSlot (wireClassReset st).descriptions
            (wireClassReset st).numInstances d1) 0 = some d1 from
          getSlot_setSlot_self 0 (wireClassReset st).descriptions d1]
      exact ⟨_, rfl⟩
    | ok u =>
      rw [mockConstruct, hrc, readInstMember]
      rw [show getSlot (setSlot (wireClassReset st).descriptions
            (wireClassReset st).numInstances d1) 0 = some d1 from
          getSlot_setSlot_self 0 (wireClassReset st).descriptions d1]
      exact ⟨_, rfl⟩

end Claims10

/-
  Heap model for argument capture. Claim C3 is about object identity: the
  recorded call must not alias the caller's structures. The tree embedding
  above cannot express later mutation of the inputs, so the cloner is also
  embedded over an explicit heap: objects live in cells addressed by
  allocation order, allocation appends, and mutating an input afterwards is
  replacing the content of a pre-existing cell.
-/

/-- Primitive values in the heap model. -/
inductive HPrim where
  | undef
  | num (n : Int)
  | str (s : String)
  | boolP (b : Bool)
deriving DecidableEq, Repr

/-- A heap value: a primitive or the address of a heap object. -/
inductive HVal where
  | prim (p : HPrim)
  | addr (a : Nat)
deriving DecidableEq, Repr

/-- A heap cell: a plain array, a plain object whose constructor is Object,
or any other object (an Error instance, a class instance), which deepClone
returns as is, capturing it by reference. -/
inductive HObj where
  | arrO (elems : List HVal)
  | objO (fields : List (String × HVal))
  | other (tag : Nat)
deriving Repr

/-- The heap: cell a is the a-th allocated object; allocation appends. -/
abbrev Heap := List HObj

mutual
/-- deepClone (source lines 309-325) over the heap: primitives and
addresses of non-plain objects are returned unchanged, plain arrays and
objects are cloned recursively into freshly allocated cells (children
first; allocation order does not affect any observable readout). The fuel
bounds the recursion depth, which is finite on the acyclic structures
JavaScript deepClone itself terminates on. -/
def deepCloneH : Nat → Heap → HVal → Option (Heap × HVal)
  | 0, _, _ => none
  | _ + 1, h, .prim p => some (h, .prim p)
  | fuel + 1, h, .addr a =>
    match h[a]? with
    | none => some (h, .addr a)
    | some (.other _) => some (h, .addr a)
    | some (.arrO es) =>
      match deepCloneListH fuel h es with
      | none => none
      | some (h1, es') => some (h1 ++ [.arrO es'], .addr h1.length)
    | some (.objO fs) =>
      match deepCloneFieldsH fuel h fs with
      | none => none
      | some (h1, fs') => some (h1 ++ [.objO fs'], .addr h1.length)

def deepCloneListH : Nat → Heap → List HVal → Option (Heap × List HVal)
  | _, h, [] => some (h, [])
  | fuel, h, v :: vs =>
    match deepCloneH fuel h v with
    | none => none
    | some (h1, v') =>
      match deepCloneListH fuel h1 vs with
      | none => none
      | some (h2, vs') => some (h2, v' :: vs')

def deepCloneFieldsH : Nat → Heap → List (String × HVal) →
    Option (Heap × List (String × HVal))
  | _, h, [] => some (h, [])
  | fuel, h, (k, v) :: fs =>
    match deepCloneH fuel h v with
    | none => none
    | some (h1, v') =>
      match deepCloneFieldsH fuel h1 fs with
      | none => none
      | some (h2, fs') => some (h2, (k, v') :: fs')
end

/-- The structural readout of a heap value: the pure tree a test observer
sees, with plain composites traversed and every other object kept as an
opaque reference identified by its address. -/
inductive HTree where
  | prim (p : HPrim)
  | arrT (elems : List HTree)
  | objT (fields : List (String × HTree))
  | refT (a : Nat)
  | dangling (a : Nat)
deriving Repr

mutual
def readH : Nat → Heap → HVal → Option HTree
  | 0, _, _ => none
  | _ + 1, _, .prim p => some (.prim p)
  | fuel + 1, h, .addr a =>
    match h[a]? with
    | none => some (.dangling a)
    | some (.other _) => some (.refT a)
    | some (.arrO es) =>
      match readListH fuel h es with
      | none => none
      | some ts => some (.arrT ts)
    | some (.objO fs) =>
      match readFieldsH fuel h fs with
      | none => none
      | some ts => some (.objT ts)

def readListH : Nat → Heap → List HVal → Option (List HTree)
  | _, _, [] => some []
  | fuel, h, v :: vs =>
    match readH fuel h v with
    | none => none
    | some t =>
      match readListH fuel h vs with
      | none => none
      | some ts => some (t :: ts)

def readFieldsH : Nat → Heap → List (String × HVal) →
    Option (List (String × HTree))
  | _, _, [] => some []
  | fuel, h, (k, v) :: fs =>
    match readH fuel h v with
    | none => none
    | some t =>
      match readFieldsH fuel h fs with
      | none => none
      | some ts => some ((k, t) :: ts)
end

mutual
/-- Whether a readout consists of plain composites and primitives only:
the inputs claim C3 ranges over. -/
def HTree.plainOnly : HTree → Bool
  | .prim _ => true
  | .arrT ts => plainOnlyList ts
  | .objT fs => plainOnlyFields fs
  | .refT _ => false
  | .dangling _ => false

def plainOnlyList : List HTree → Bool
  | [] => true
  | t :: ts => t.plainOnly && plainOnlyList ts

def plainOnlyFields : List (String × HTree) → Bool
  | [] => true
  | (_, t) :: fs => t.plainOnly && plainOnlyFields fs
end

/-- The second heap extends the first: everything old is still in place and
new cells only appear at fresh addresses. -/
def heapLe (h h₂ : Heap) : Prop := ∃ tail, h₂ = h ++ tail

/-- The heap g agrees with base on every address in the given interval: a
mutation of the pre-existing cells only may change anything below n. -/
def agreesOn (n m : Nat) (base g : Heap) : Prop :=
  ∀ a, n ≤ a → a < m → g[a]? = base[a]?

theorem heapLe_refl (h : Heap) : heapLe h h := ⟨[], by simp⟩

theorem heapLe_trans {h1 h2 h3 : Heap} (a : heapLe h1 h2) (b : heapLe h2 h3) :
    heapLe h1 h3 := by
  obtain ⟨t1, rfl⟩ := a
  obtain ⟨t2, rfl⟩ := b
  exact ⟨t1 ++ t2, by rw [List.append_assoc]⟩

theorem heapLe_length {h h₂ : Heap} (hle : heapLe h h₂) : h.length ≤ h₂.length := by
  obtain ⟨t, rfl⟩ := hle
  simp

theorem heapLe_cell {h h₂ : Heap} {a : Nat} (hle : heapLe h h₂) (ha : a < h.length) :
    h₂[a]? = h[a]? := by
  obtain ⟨t, rfl⟩ := hle
  exact List.getElem?_append_left ha

theorem cell_lt {h : Heap} {a : Nat} {o : HObj} (hg : h[a]? = some o) :
    a < h.length := by
  rw [List.getElem?_eq_some] at hg
  exact hg.1

/-- Cloning only allocates: the resulting heap extends the input heap, every
pre-existing cell untouched. -/
theorem cloneExtends : ∀ fuel : Nat,
    (∀ h v h' v', deepCloneH fuel h v = some (h', v') → heapLe h h') ∧
    (∀ h vs h' vs', deepCloneListH fuel h vs = some (h', vs') → heapLe h h') ∧
    (∀ h fs h' fs', deepCloneFieldsH fuel h fs = some (h', fs') → heapLe h h') := by
  intro fuel
  induction fuel with
  | zero =>
    refine ⟨?_, ?_, ?_⟩
    · intro h v h' v' hc
      have heq : deepCloneH 0 h v = none := by simp [deepCloneH]
      rw [heq] at hc
      exact Option.noConfusion hc
    · intro h vs h' vs' hc
      cases vs with
      | nil =>
        have heq : deepCloneListH 0 h [] = some (h, []) := by simp [deepCloneListH]
        have hpair := Option.some.inj (heq.symm.trans hc)
        injection hpair with hh hv
        subst hh
        exact heapLe_refl h
      | cons v rest =>
        have heq : deepCloneListH 0 h (v :: rest) = none := by
          simp [deepCloneListH, deepCloneH]
        rw [heq] at hc
        exact Option.noConfusion hc
    · intro h fs h' fs' hc
      cases fs with
      | nil =>
        have heq : deepCloneFieldsH 0 h [] = some (h, []) := by simp [deepCloneFieldsH]
        have hpair := Option.some.inj (heq.symm.trans hc)
        injection hpair with hh hv
        subst hh
        exact heapLe_refl h
      | cons f rest =>
        obtain ⟨k, v⟩ := f
        have heq : deepCloneFieldsH 0 h ((k, v) :: rest) = none := by
          simp [deepCloneFieldsH, deepCloneH]
        rw [heq] at hc
        exact Option.noConfusion hc
  | succ fuel ih =>
    obtain ⟨_, ih2, ih3⟩ := ih
    have main : ∀ h v h' v', deepCloneH (fuel + 1) h v = some (h', v') → heapLe h h' := by
      intro h v h' v' hc
      cases v with
      | prim p =>
        have heq : deepCloneH (fuel + 1) h (.prim p) = some (h, .prim p) := by
          simp [deepCloneH]
        have hpair := Option.some.inj (heq.symm.trans hc)
        injection hpair with hh hv
        subst hh
        exact heapLe_refl h
      | addr a =>
        cases hget : h[a]? with
        | none =>
          have heq : deepCloneH (fuel + 1) h (.addr a) = some (h, .addr a) := by
            simp [deepCloneH, hget]
          have hpair := Option.some.inj (heq.symm.trans hc)
          injection hpair with hh hv
          subst hh
          exact heapLe_refl h
        | some o =>
          cases o with
          | other tag =>
            have heq : deepCloneH (fuel + 1) h (.addr a) = some (h, .addr a) := by
              simp [deepCloneH, hget]
            have hpair := Option.some.inj (heq.symm.trans hc)
            injection hpair with hh hv
            subst hh
            exact heapLe_refl h
          | arrO es =>
            cases hcl : deepCloneListH fuel h es with
            | none =>
              have heq : deepCloneH (fuel + 1) h (.addr a) = none := by
                simp [deepCloneH, hget, hcl]
              rw [heq] at hc
              exact Option.noConfusion hc
            | some p =>
              obtain ⟨h1, es'⟩ := p
              have heq : deepCloneH (fuel + 1) h (.addr a)
                  = some (h1 ++ [.arrO es'], .addr h1.length) := by
                simp [deepCloneH, hget, hcl]
              have hpair := Option.some.inj (heq.symm.trans hc)
              injection hpair with hh hv
              subst hh
              exact heapLe_trans (ih2 h es h1 es' hcl) ⟨[.arrO es'], rfl⟩
          | objO fs =>
            cases hcl : deepCloneFieldsH fuel h fs with
            | none =>
              have heq : deepCloneH (fuel + 1) h (.addr a) = none := by
                simp [deepCloneH, hget, hcl]
              rw [heq] at hc
              exact Option.noConfusion hc
            | some p =>
              obtain ⟨h1, fs'⟩ := p
              have heq : deepCloneH (fuel + 1) h (.addr a)
                  = some (h1 ++ [.objO fs'], .addr h1.length) := by
                simp [deepCloneH, hget, hcl]
              have hpair := Option.some.inj (heq.symm.trans hc)
              injection hpair with hh hv
              subst hh
              exact heapLe_trans (ih3 h fs h1 fs' hcl) ⟨[.objO fs'], rfl⟩
    have listpart : ∀ vs h h' vs', deepCloneListH (fuel + 1) h vs = some (h', vs') →
        heapLe h h' := by
      intro vs
      induction vs with
      | nil =>
        intro h h' vs' hc
        have heq : deepCloneListH (fuel + 1) h [] = some (h, []) := by
          simp [deepCloneListH]
        have hpair := Option.some.inj (heq.symm.trans hc)
        injection hpair with hh hv
        subst hh
        exact heapLe_refl h
      | cons v rest ihr =>
        intro h h' vs' hc
        cases hcv : deepCloneH (fuel + 1) h v with
        | none =>
          have heq : deepCloneListH (fuel + 1) h (v :: rest) = none := by
            simp [deepCloneListH, hcv]
          rw [heq] at hc
          exact Option.noConfusion hc
        | some p =>
          obtain ⟨h1, v₀⟩ := p
          cases hcr : deepCloneListH (fuel + 1) h1 rest with
          | none =>
            have heq : deepCloneListH (fuel + 1) h (v :: rest) = none := by
              simp [deepCloneListH, hcv, hcr]
            rw [heq] at hc
            exact Option.noConfusion hc
          | some q =>
            obtain ⟨h2, rest'⟩ := q
            have heq : deepCloneListH (fuel + 1) h (v :: rest)
                = some (h2, v₀ :: rest') := by
              simp [deepCloneListH, hcv, hcr]
            have hpair := Option.some.inj (heq.symm.trans hc)
            injection hpair with hh hv
            subst hh
            exact heapLe_trans (main h v h1 v₀ hcv) (ihr h1 h2 rest' hcr)
    have fieldspart : ∀ fs h h' fs', deepCloneFieldsH (fuel + 1) h fs = some (h', fs') →
        heapLe h h' := by
      intro fs
      induction fs with
      | nil =>
        intro h h' fs' hc
        have heq : deepCloneFieldsH (fuel + 1) h [] = some (h, []) := by
          simp [deepCloneFieldsH]
        have hpair := Option.some.inj (heq.symm.trans hc)
        injection hpair with hh hv
        subst hh
        exact heapLe_refl h
      | cons f rest ihr =>
        obtain ⟨k, v⟩ := f
        intro h h' fs' hc
        cases hcv : deepCloneH (fuel + 1) h v with
        | none =>
          have heq : deepCloneFieldsH (fuel + 1) h ((k, v) :: rest) = none := by
            simp [deepCloneFieldsH, hcv]
          rw [heq] at hc
          exact Option.noConfusion hc
        | some p =>
          obtain ⟨h1, v₀⟩ := p
          cases hcr : deepCloneFieldsH (fuel + 1) h1 rest with
          | none =>
            have heq : deepCloneFieldsH (fuel + 1) h ((k, v) :: rest) = none := by
              simp [deepCloneFieldsH, hcv, hcr]
            rw [heq] at hc
            exact Option.noConfusion hc
          | some q =>
            obtain ⟨h2, rest'⟩ := q
            have heq : deepCloneFieldsH (fuel + 1) h ((k, v) :: rest)
                = some (h2, (k, v₀) :: rest') := by
              simp [deepCloneFieldsH, hcv, hcr]
            have hpair := Option.some.inj (heq.symm.trans hc)
            injection hpair with hh hv
            subst hh
            exact heapLe_trans (main h v h1 v₀ hcv) (ihr h1 h2 rest' hcr)
    exact ⟨main, fun h vs => listpart vs h, fun h fs => fieldspart fs h⟩

/-- A readout that dereferences only live cells (its tree is plain) is
unchanged when the heap is merely extended with fresh cells. -/
theorem readStable : ∀ fuel : Nat,
    (∀ h h₂ v t, readH fuel h v = some t → HTree.plainOnly t = true → heapLe h h₂ →
        readH fuel h₂ v = some t) ∧
    (∀ h h₂ vs ts, readListH fuel h vs = some ts → plainOnlyList ts = true → heapLe h h₂ →
        readListH fuel h₂ vs = some ts) ∧
    (∀ h h₂ fs ts, readFieldsH fuel h fs = some ts → plainOnlyFields ts = true →
        heapLe h h₂ → readFieldsH fuel h₂ fs = some ts) := by
  intro fuel
  induction fuel with
  | zero =>
    refine ⟨?_, ?_, ?_⟩
    · intro h h₂ v t hr
      have heq : readH 0 h v = none := by simp [readH]
      rw [heq] at hr
      exact Option.noConfusion hr
    · intro h h₂ vs ts hr hplain hle
      cases vs with
      | nil =>
        have heq : readListH 0 h [] = some [] := by simp [readListH]
        have hts := Option.some.inj (heq.symm.trans hr)
        subst hts
        simp [readListH]
      | cons v rest =>
        have heq : readListH 0 h (v :: rest) = none := by simp [readListH, readH]
        rw [heq] at hr
        exact Option.noConfusion hr
    · intro h h₂ fs ts hr hplain hle
      cases fs with
      | nil =>
        have heq : readFieldsH 0 h [] = some [] := by simp [readFieldsH]
        have hts := Option.some.inj (heq.symm.trans hr)
        subst hts
        simp [readFieldsH]
      | cons f rest =>
        obtain ⟨k, v⟩ := f
        have heq : readFieldsH 0 h ((k, v) :: rest) = none := by
          simp [readFieldsH, readH]
        rw [heq] at hr
        exact Option.noConfusion hr
  | succ fuel ih =>
    obtain ⟨_, ih2, ih3⟩ := ih
    have main : ∀ h h₂ v t, readH (fuel + 1) h v = some t → HTree.plainOnly t = true →
        heapLe h h₂ → readH (fuel + 1) h₂ v = some t := by
      intro h h₂ v t hr hplain hle
      cases v with
      | prim p =>
        have heq : readH (fuel + 1) h (.prim p) = some (.prim p) := by simp [readH]
        have ht := Option.some.inj (heq.symm.trans hr)
        subst ht
        simp [readH]
      | addr a =>
        cases hget : h[a]? with
        | none =>
          have heq : readH (fuel + 1) h (.addr a) = some (.dangling a) := by
            simp [readH, hget]
          have ht := Option.some.inj (heq.symm.trans hr)
          rw [← ht] at hplain
          exact absurd hplain (by simp [HTree.plainOnly])
        | some o =>
          have hget₂ : h₂[a]? = some o := by
            rw [heapLe_cell hle (cell_lt hget)]
            exact hget
          cases o with
          | other tag =>
            have heq : readH (fuel + 1) h (.addr a) = some (.refT a) := by
              simp [readH, hget]
            have ht := Option.some.inj (heq.symm.trans hr)
            rw [← ht] at hplain
            exact absurd hplain (by simp [HTree.plainOnly])
          | arrO es =>
            cases hrl : readListH fuel h es with
            | none =>
              have heq : readH (fuel + 1) h (.addr a) = none := by
                simp [readH, hget, hrl]
              rw [heq] at hr
              exact Option.noConfusion hr
            | some ts0 =>
              have heq : readH (fuel + 1) h (.addr a) = some (.arrT ts0) := by
                simp [readH, hget, hrl]
              have ht := Option.some.inj (heq.symm.trans hr)
              subst ht
              have hplain' : plainOnlyList ts0 = true := by
                simpa [HTree.plainOnly] using hplain
              have hrl₂ := ih2 h h₂ es ts0 hrl hplain' hle
              simp [readH, hget₂, hrl₂]
          | objO fs =>
            cases hrl : readFieldsH fuel h fs with
            | none =>
              have heq : readH (fuel + 1) h (.addr a) = none := by
                simp [readH, hget, hrl]
              rw [heq] at hr
              exact Option.noConfusion hr
            | some ts0 =>
              have heq : readH (fuel + 1) h (.addr a) = some (.objT ts0) := by
                simp [readH, hget, hrl]
              have ht := Option.some.inj (heq.symm.trans hr)
              subst ht
              have hplain' : plainOnlyFields ts0 = true := by
                simpa [HTree.plainOnly] using hplain
              have hrl₂ := ih3 h h₂ fs ts0 hrl hplain' hle
              simp [readH, hget₂, hrl₂]
    have listpart : ∀ vs h h₂ ts, readListH (fuel + 1) h vs = some ts →
        plainOnlyList ts = true → heapLe h h₂ → readListH (fuel + 1) h₂ vs = some ts := by
      intro vs
      induction vs with
      | nil =>
        intro h h₂ ts hr hplain hle
        have heq : readListH (fuel + 1) h [] = some [] := by simp [readListH]
        have hts := Option.some.inj (heq.symm.trans hr)
        subst hts
        simp [readListH]
      | cons v rest ihr =>
        intro h h₂ ts hr hplain hle
        cases hrv : readH (fuel + 1) h v with
        | none =>
          have heq : readListH (fuel + 1) h (v :: rest) = none := by
            simp [readListH, hrv]
          rw [heq] at hr
          exact Option.noConfusion hr
        | some t0 =>
          cases hrl : readListH (fuel + 1) h rest with
          | none =>
            have heq : readListH (fuel + 1) h (v :: rest) = none := by
              simp [readListH, hrv, hrl]
            rw [heq] at hr
            exact Option.noConfusion hr
          | some ts0 =>
            have heq : readListH (fuel + 1) h (v :: rest) = some (t0 :: ts0) := by
              simp [readListH, hrv, hrl]
            have hts := Option.some.inj (heq.symm.trans hr)
            subst hts
            have hp0 : HTree.plainOnly t0 = true := by
              have := hplain
              simp [plainOnlyList] at this
              exact this.1
            have hp1 : plainOnlyList ts0 = true := by
              have := hplain
              simp [plainOnlyList] at this
              exact this.2
            have h1 := main h h₂ v t0 hrv hp0 hle
            have h2 := ihr h h₂ ts0 hrl hp1 hle
            simp [readListH, h1, h2]
    have fieldspart : ∀ fs h h₂ ts, readFieldsH (fuel + 1) h fs = some ts →
        plainOnlyFields ts = true → heapLe h h₂ → readFieldsH (fuel + 1) h₂ fs = some ts := by
      intro fs
      induction fs with
      | nil =>
        intro h h₂ ts hr hplain hle
        have heq : readFieldsH (fuel + 1) h [] = some [] := by simp [readFieldsH]
        have hts := Option.some.inj (heq.symm.trans hr)
        subst hts
        simp [readFieldsH]
      | cons f rest ihr =>
        obtain ⟨k, v⟩ := f
        intro h h₂ ts hr hplain hle
        cases hrv : readH (fuel + 1) h v with
        | none =>
          have heq : readFieldsH (fuel + 1) h ((k, v) :: rest) = none := by
            simp [readFieldsH, hrv]
          rw [heq] at hr
          exact Option.noConfusion hr
        | some t0 =>
          cases hrl : readFieldsH (fuel + 1) h rest with
          | none =>
            have heq : readFieldsH (fuel + 1) h ((k, v) :: rest) = none := by
              simp [readFieldsH, hrv, hrl]
            rw [heq] at hr
            exact Option.noConfusion hr
          | some ts0 =>
            have heq : readFieldsH (fuel + 1) h ((k, v) :: rest)
                = some ((k, t0) :: ts0) := by
              simp [readFieldsH, hrv, hrl]
            have hts := Option.some.inj (heq.symm.trans hr)
            subst hts
            have hp0 : HTree.plainOnly t0 = true := by
              have := hplain
              simp [plainOnlyFields] at this
              exact this.1
            have hp1 : plainOnlyFields ts0 = true := by
              have := hplain
              simp [plainOnlyFields] at this
              exact this.2
            have h1 := main h h₂ v t0 hrv hp0 hle
            have h2 := ihr h h₂ ts0 hrl hp1 hle
            simp [readFieldsH, h1, h2]
    exact ⟨main, fun h h₂ vs => listpart vs h h₂, fun h h₂ fs => fieldspart fs h h₂⟩

theorem agreesOn_mono_left {n n' m : Nat} {base g : Heap} (hnn : n ≤ n')
    (hag : agreesOn n m base g) : agreesOn n' m base g :=
  fun a ha1 ha2 => hag a (le_trans hnn ha1) ha2

/-- Agreement with an extended heap restricted below the last allocation. -/
theorem agreesOn_append {n : Nat} {h1 g : Heap} {c : HObj}
    (hag : agreesOn n (h1 ++ [c]).length (h1 ++ [c]) g) :
    agreesOn n h1.length h1 g := by
  intro a ha1 ha2
  have hx := hag a ha1 (by simp; omega)
  rw [hx]
  exact List.getElem?_append_left ha2

/-- Agreement with the final heap of a sequence of allocations restricted
to an intermediate heap of that sequence. -/
theorem agreesOn_sub {n : Nat} {ha h1 g : Heap} (hle : heapLe ha h1)
    (hag : agreesOn n h1.length h1 g) : agreesOn n ha.length ha g := by
  intro a ha1 ha2
  have h3 := hag a ha1 (lt_of_lt_of_le ha2 (heapLe_length hle))
  rw [h3, heapLe_cell hle ha2]

/-- The central isolation property of the cloner: when the input reads to a
plain tree, the clone reads to the same tree, and it keeps reading to that
tree in any heap that agrees with the clone-extended heap on the freshly
allocated region only - that is, after arbitrary mutation of every
pre-existing cell, the cells the caller can reach through the original
inputs. -/
theorem cloneReadAgrees : ∀ fuel : Nat,
    (∀ h v h' v' t, deepCloneH fuel h v = some (h', v') → readH fuel h v = some t →
        HTree.plainOnly t = true →
        ∀ g, agreesOn h.length h'.length h' g → readH fuel g v' = some t) ∧
    (∀ h vs h' vs' ts, deepCloneListH fuel h vs = some (h', vs') →
        readListH fuel h vs = some ts → plainOnlyList ts = true →
        ∀ g, agreesOn h.length h'.length h' g → readListH fuel g vs' = some ts) ∧
    (∀ h fs h' fs' ts, deepCloneFieldsH fuel h fs = some (h', fs') →
        readFieldsH fuel h fs = some ts → plainOnlyFields ts = true →
        ∀ g, agreesOn h.length h'.length h' g → readFieldsH fuel g fs' = some ts) := by
  intro fuel
  induction fuel with
  | zero =>
    refine ⟨?_, ?_, ?_⟩
    · intro h v h' v' t hc
      have heq : deepCloneH 0 h v = none := by simp [deepCloneH]
      rw [heq] at hc
      exact Option.noConfusion hc
    · intro h vs h' vs' ts hc hr hplain g hag
      cases vs with
      | nil =>
        have heq : deepCloneListH 0 h [] = some (h, []) := by simp [deepCloneListH]
        have hpair := Option.some.inj (heq.symm.trans hc)
        injection hpair with hh hv
        subst hv
        have heqr : readListH 0 h [] = some [] := by simp [readListH]
        have hts := Option.some.inj (heqr.symm.trans hr)
        subst hts
        simp [readListH]
      | cons v rest =>
        have heq : deepCloneListH 0 h (v :: rest) = none := by
          simp [deepCloneListH, deepCloneH]
        rw [heq] at hc
        exact Option.noConfusion hc
    · intro h fs h' fs' ts hc hr hplain g hag
      cases fs with
      | nil =>
        have heq : deepCloneFieldsH 0 h [] = some (h, []) := by simp [deepCloneFieldsH]
        have hpair := Option.some.inj (heq.symm.trans hc)
        injection hpair with hh hv
        subst hv
        have heqr : readFieldsH 0 h [] = some [] := by simp [readFieldsH]
        have hts := Option.some.inj (heqr.symm.trans hr)
        subst hts
        simp [readFieldsH]
      | cons f rest =>
        obtain ⟨k, v⟩ := f
        have heq : deepCloneFieldsH 0 h ((k, v) :: rest) = none := by
          simp [deepCloneFieldsH, deepCloneH]
        rw [heq] at hc
        exact Option.noConfusion hc
  | succ fuel ih =>
    obtain ⟨_, ih2, ih3⟩ := ih
    have main : ∀ h v h' v' t, deepCloneH (fuel + 1) h v = some (h', v') →
        readH (fuel + 1) h v = some t → HTree.plainOnly t = true →
        ∀ g, agreesOn h.length h'.length h' g → readH (fuel + 1) g v' = some t := by
      intro h v h' v' t hc hr hplain g hag
      cases v with
      | prim p =>
        have heq : deepCloneH (fuel + 1) h (.prim p) = some (h, .prim p) := by
          simp [deepCloneH]
        have hpair := Option.some.inj (heq.symm.trans hc)
        injection hpair with hh hv
        subst hv
        have heqr : readH (fuel + 1) h (.prim p) = some (.prim p) := by simp [readH]
        have ht := Option.some.inj (heqr.symm.trans hr)
        subst ht
        simp [readH]
      | addr a =>
        cases hget : h[a]? with
        | none =>
          have heqr : readH (fuel + 1) h (.addr a) = some (.dangling a) := by
            simp [readH, hget]
          have ht := Option.some.inj (heqr.symm.trans hr)
          rw [← ht] at hplain
          exact absurd hplain (by simp [HTree.plainOnly])
        | some o =>
          cases o with
          | other tag =>
            have heqr : readH (fuel + 1) h (.addr a) = some (.refT a) := by
              simp [readH, hget]
            have ht := Option.some.inj (heqr.symm.trans hr)
            rw [← ht] at hplain
            exact absurd hplain (by simp [HTree.plainOnly])
          | arrO es =>
            cases hcl : deepCloneListH fuel h es with
            | none =>
              have heq : deepCloneH (fuel + 1) h (.addr a) = none := by
                simp [deepCloneH, hget, hcl]
              rw [heq] at hc
              exact Option.noConfusion hc
            | some p =>
              obtain ⟨h1, es'⟩ := p
              have heq : deepCloneH (fuel + 1) h (.addr a)
                  = some (h1 ++ [.arrO es'], .addr h1.length) := by
                simp [deepCloneH, hget, hcl]
              have hpair := Option.some.inj (heq.symm.trans hc)
              injection hpair with hh hv
              subst hh
              subst hv
              cases hrl : readListH fuel h es with
              | none =>
                have heqr : readH (fuel + 1) h (.addr a) = none := by
                  simp [readH, hget, hrl]
                rw [heqr] at hr
                exact Option.noConfusion hr
              | some ts0 =>
                have heqr : readH (fuel + 1) h (.addr a) = some (.arrT ts0) := by
                  simp [readH, hget, hrl]
                have ht := Option.some.inj (heqr.symm.trans hr)
                subst ht
                have hplain' : plainOnlyList ts0 = true := by
                  simpa [HTree.plainOnly] using hplain
                have hle1 : heapLe h h1 := (cloneExtends fuel).2.1 h es h1 es' hcl
                have hcell : g[h1.length]? = some (.arrO es') := by
                  have hx := hag h1.length (heapLe_length hle1) (by simp)
                  rw [hx]
                  exact List.getElem?_concat_length h1 _
                have hchild := ih2 h es h1 es' ts0 hcl hrl hplain' g (agreesOn_append hag)
                simp [readH, hcell, hchild]
          | objO fs =>
            cases hcl : deepCloneFieldsH fuel h fs with
            | none =>
              have heq : deepCloneH (fuel + 1) h (.addr a) = none := by
                simp [deepCloneH, hget, hcl]
              rw [heq] at hc
              exact Option.noConfusion hc
            | some p =>
              obtain ⟨h1, fs'⟩ := p
              have heq : deepCloneH (fuel + 1) h (.addr a)
                  = some (h1 ++ [.objO fs'], .addr h1.length) := by
                simp [deepCloneH, hget, hcl]
              have hpair := Option.some.inj (heq.symm.trans hc)
              injection hpair with hh hv
              subst hh
              subst hv
              cases hrl : readFieldsH fuel h fs with
              | none =>
                have heqr : readH (fuel + 1) h (.addr a) = none := by
                  simp [readH, hget, hrl]
                rw [heqr] at hr
                exact Option.noConfusion hr
              | some ts0 =>
                have heqr : readH (fuel + 1) h (.addr a) = some (.objT ts0) := by
                  simp [readH, hget, hrl]
                have ht := Option.some.inj (heqr.symm.trans hr)
                subst ht
                have hplain' : plainOnlyFields ts0 = true := by
                  simpa [HTree.plainOnly] using hplain
                have hle1 : heapLe h h1 := (cloneExtends fuel).2.2 h fs h1 fs' hcl
                have hcell : g[h1.length]? = some (.objO fs') := by
                  have hx := hag h1.length (heapLe_length hle1) (by simp)
                  rw [hx]
                  exact List.getElem?_concat_length h1 _
                have hchild := ih3 h fs h1 fs' ts0 hcl hrl hplain' g (agreesOn_append hag)
                simp [readH, hcell, hchild]
    have listpart : ∀ vs h h' vs' ts, deepCloneListH (fuel + 1) h vs = some (h', vs') →
        readListH (fuel + 1) h vs = some ts → plainOnlyList ts = true →
        ∀ g, agreesOn h.length h'.length h' g → readListH (fuel + 1) g vs' = some ts := by
      intro vs
      induction vs with
      | nil =>
        intro h h' vs' ts hc hr hplain g hag
        have heq : deepCloneListH (fuel + 1) h [] = some (h, []) := by
          simp [deepCloneListH]
        have hpair := Option.some.inj (heq.symm.trans hc)
        injection hpair with hh hv
        subst hv
        have heqr : readListH (fuel + 1) h [] = some [] := by simp [readListH]
        have hts := Option.some.inj (heqr.symm.trans hr)
        subst hts
        simp [readListH]
      | cons v rest ihr =>
        intro h h' vs' ts hc hr hplain g hag
        cases hcv : deepCloneH (fuel + 1) h v with
        | none =>
          have heq : deepCloneListH (fuel + 1) h (v :: rest) = none := by
            simp [deepCloneListH, hcv]
          rw [heq] at hc
          exact Option.noConfusion hc
        | some p =>
          obtain ⟨ha, v0⟩ := p
          cases hcr : deepCloneListH (fuel + 1) ha rest with
          | none =>
            have heq : deepCloneListH (fuel + 1) h (v :: rest) = none := by
              simp [deepCloneListH, hcv, hcr]
            rw [heq] at hc
            exact Option.noConfusion hc
          | some q =>
            obtain ⟨h1, rest0⟩ := q
            have heq : deepCloneListH (fuel + 1) h (v :: rest)
                = some (h1, v0 :: rest0) := by
              simp [deepCloneListH, hcv, hcr]
            have hpair := Option.some.inj (heq.symm.trans hc)
            injection hpair with hh hv
            subst hh
            subst hv
            cases hrv : readH (fuel + 1) h v with
            | none =>
              have heqr : readListH (fuel + 1) h (v :: rest) = none := by
                simp [readListH, hrv]
              rw [heqr] at hr
              exact Option.noConfusion hr
            | some t0 =>
              cases hrl : readListH (fuel + 1) h rest with
              | none =>
                have heqr : readListH (fuel + 1) h (v :: rest) = none := by
                  simp [readListH, hrv, hrl]
                rw [heqr] at hr
                exact Option.noConfusion hr
              | some ts0 =>
                have heqr : readListH (fuel + 1) h (v :: rest) = some (t0 :: ts0) := by
                  simp [readListH, hrv, hrl]
                have hts := Option.some.inj (heqr.symm.trans hr)
                subst hts
                have hp0 : HTree.plainOnly t0 = true := by
                  have := hplain
                  simp [plainOnlyList] at this
                  exact this.1
                have hp1 : plainOnlyList ts0 = true := by
                  have := hplain
                  simp [plainOnlyList] at this
                  exact this.2
                have hleha : heapLe h ha := (cloneExtends (fuel + 1)).1 h v ha v0 hcv
                have hhead := main h v ha v0 t0 hcv hrv hp0 g
                  (agreesOn_sub ((cloneExtends (fuel + 1)).2.1 ha rest h1 rest0 hcr) hag)
                have hrl' := (readStable (fuel + 1)).2.1 h ha rest ts0 hrl hp1 hleha
                have htail := ihr ha h1 rest0 ts0 hcr hrl' hp1 g
                  (agreesOn_mono_left (heapLe_length hleha) hag)
                simp [readListH, hhead, htail]
    have fieldspart : ∀ fs h h' fs' ts,
        deepCloneFieldsH (fuel + 1) h fs = some (h', fs') →
        readFieldsH (fuel + 1) h fs = some ts → plainOnlyFields ts = true →
        ∀ g, agreesOn h.length h'.length h' g → readFieldsH (fuel + 1) g fs' = some ts := by
      intro fs
      induction fs with
      | nil =>
        intro h h' fs' ts hc hr hplain g hag
        have heq : deepCloneFieldsH (fuel + 1) h [] = some (h, []) := by
          simp [deepCloneFieldsH]
        have hpair := Option.some.inj (heq.symm.trans hc)
        injection hpair with hh hv
        subst hv
        have heqr : readFieldsH (fuel + 1) h [] = some [] := by simp [readFieldsH]
        have hts := Option.some.inj (heqr.symm.trans hr)
        subst hts
        simp [readFieldsH]
      | cons f rest ihr =>
        obtain ⟨k, v⟩ := f
        intro h h' fs' ts hc hr hplain g hag
        cases hcv : deepCloneH (fuel + 1) h v with
        | none =>
          have heq : deepCloneFieldsH (fuel + 1) h ((k, v) :: rest) = none := by
            simp [deepCloneFieldsH, hcv]
          rw [heq] at hc
          exact Option.noConfusion hc
        | some p =>
          obtain ⟨ha, v0⟩ := p
          cases hcr : deepCloneFieldsH (fuel + 1) ha rest with
          | none =>
            have heq : deepCloneFieldsH (fuel + 1) h ((k, v) :: rest) = none := by
              simp [deepCloneFieldsH, hcv, hcr]
            rw [heq] at hc
            exact Option.noConfusion hc
          | some q =>
            obtain ⟨h1, rest0⟩ := q
            have heq : deepCloneFieldsH (fuel + 1) h ((k, v) :: rest)
                = some (h1, (k, v0) :: rest0) := by
              simp [deepCloneFieldsH, hcv, hcr]
            have hpair := Option.some.inj (heq.symm.trans hc)
            injection hpair with hh hv
            subst hh
            subst hv
            cases hrv : readH (fuel + 1) h v with
            | none =>
              have heqr : readFieldsH (fuel + 1) h ((k, v) :: rest) = none := by
                simp [readFieldsH, hrv]
              rw [heqr] at hr
              exact Option.noConfusion hr
            | some t0 =>
              cases hrl : readFieldsH (fuel + 1) h rest with
              | none =>
                have heqr : readFieldsH (fuel + 1) h ((k, v) :: rest) = none := by
                  simp [readFieldsH, hrv, hrl]
                rw [heqr] at hr
                exact Option.noConfusion hr
              | some ts0 =>
                have heqr : readFieldsH (fuel + 1) h ((k, v) :: rest)
                    = some ((k, t0) :: ts0) := by
                  simp [readFieldsH, hrv, hrl]
                have hts := Option.some.inj (heqr.symm.trans hr)
                subst hts
                have hp0 : HTree.plainOnly t0 = true := by
                  have := hplain
                  simp [plainOnlyFields] at this
                  exact this.1
                have hp1 : plainOnlyFields ts0 = true := by
                  have := hplain
                  simp [plainOnlyFields] at this
                  exact this.2
                have hleha : heapLe h ha := (cloneExtends (fuel + 1)).1 h v ha v0 hcv
                have hhead := main h v ha v0 t0 hcv hrv hp0 g
                  (agreesOn_sub ((cloneExtends (fuel + 1)).2.2 ha rest h1 rest0 hcr) hag)
                have hrl' := (readStable (fuel + 1)).2.2 h ha rest ts0 hrl hp1 hleha
                have htail := ihr ha h1 rest0 ts0 hcr hrl' hp1 g
                  (agreesOn_mono_left (heapLe_length hleha) hag)
                simp [readFieldsH, hhead, htail]
    exact ⟨main, fun h vs => listpart vs h, fun h fs => fieldspart fs h⟩

/-- Lines 102-103 of getFunctionBody in the heap model: push the deep clone
of the processed arguments onto the call log. -/
def recordCall (fuel : Nat) (h : Heap) (callsLog : List HVal) (v : HVal) :
    Option (Heap × List HVal) :=
  match deepCloneH fuel h v with
  | none => none
  | some (h', v') => some (h', callsLog ++ [v'])

section Claims3

/-- Claim C3: recording an invocation whose processed inputs read to a plain
composite tree (plain objects and arrays recursively) appends to the call
log a value that reads to exactly that tree - a structural copy of the
inputs at invocation time - and that still reads to the same tree in every
heap agreeing with the clone result on the freshly allocated cells alone,
that is, after arbitrary mutation of each original, pre-existing cell;
values that are not plain composites are captured by reference: the cloner
returns their address unchanged without allocating. -/
theorem c3_capture_isolation (fuel : Nat) (h : Heap) (log : List HVal) (v : HVal)
    (h' : Heap) (log' : List HVal) (t : HTree)
    (hrec : recordCall fuel h log v = some (h', log'))
    (hread : readH fuel h v = some t)
    (hplain : HTree.plainOnly t = true) :
    (∃ v', log'[log.length]? = some v' ∧
       readH fuel h' v' = some t ∧
       ∀ g, (∀ a, h.length ≤ a → a < h'.length → g[a]? = h'[a]?) →
         readH fuel g v' = some t) ∧
    (∀ (fuel₂ : Nat) (hp : Heap) (a tag : Nat), hp[a]? = some (.other tag) →
       deepCloneH (fuel₂ + 1) hp (.addr a) = some (hp, .addr a)) := by
  constructor
  · cases hcl : deepCloneH fuel h v with
    | none =>
      have heq : recordCall fuel h log v = none := by simp [recordCall, hcl]
      rw [heq] at hrec
      exact Option.noConfusion hrec
    | some p =>
      obtain ⟨h2, v'⟩ := p
      have heq : recordCall fuel h log v = some (h2, log ++ [v']) := by
        simp [recordCall, hcl]
      have hpair := Option.some.inj (heq.symm.trans hrec)
      injection hpair with hh hl
      subst hh
      subst hl
      refine ⟨v', List.getElem?_concat_length log v', ?_, ?_⟩
      · exact (cloneReadAgrees fuel).1 h v h2 v' t hcl hread hplain h2
          (fun a _ _ => rfl)
      · intro g hag
        exact (cloneReadAgrees fuel).1 h v h2 v' t hcl hread hplain g hag
  · intro fuel₂ hp a tag hget
    simp [deepCloneH, hget]

/-- Witness for C3 at a concrete heap: one plain object cell holding a
field x of 1; recording it appends a clone at the fresh address 1, the clone
reads back to the same tree, and it still does after the original cell 0 is
mutated to hold 99. -/
theorem c3_capture_isolation_witness :
    (∃ v', ([HVal.addr 1] : List HVal)[([] : List HVal).length]? = some v' ∧
       readH 2 [HObj.objO [("x", HVal.prim (.num 1))],
                HObj.objO [("x", HVal.prim (.num 1))]] v'
         = some (HTree.objT [("x", HTree.prim (.num 1))]) ∧
       ∀ g, (∀ a, ([HObj.objO [("x", HVal.prim (.num 1))]] : Heap).length ≤ a →
              a < ([HObj.objO [("x", HVal.prim (.num 1))],
                    HObj.objO [("x", HVal.prim (.num 1))]] : Heap).length →
              g[a]? = ([HObj.objO [("x", HVal.prim (.num 1))],
                        HObj.objO [("x", HVal.prim (.num 1))]] : Heap)[a]?) →
         readH 2 g v' = some (HTree.objT [("x", HTree.prim (.num 1))])) ∧
    (∀ (fuel₂ : Nat) (hp : Heap) (a tag : Nat), hp[a]? = some (.other tag) →
       deepCloneH (fuel₂ + 1) hp (.addr a) = some (hp, .addr a)) := by
  exact c3_capture_isolation 2 [HObj.objO [("x", HVal.prim (.num 1))]] [] (.addr 0)
    [HObj.objO [("x", HVal.prim (.num 1))], HObj.objO [("x", HVal.prim (.num 1))]]
    [HVal.addr 1] (HTree.objT [("x", HTree.prim (.num 1))])
    (by simp [recordCall, deepCloneH, deepCloneFieldsH])
    (by simp [readH, readFieldsH])
    (by simp [HTree.plainOnly, plainOnlyFields])

end Claims3

end LilMocky
